import Mathlib

/-!
Verification of the seeq library core (notebooks `Tools`, `2a Lattices`,
`2b Circuit-QED`) against its natural-language specification.

The Python source is shallowly embedded here:
* floating-point scalars become exact rationals (`ℚ`);
* scipy sparse matrices become Mathlib matrices over `ℚ` (the sparse
  storage format is a performance detail with no semantic content);
* numpy broadcasting of scalar-or-array parameters becomes the
  `ScalarOrVec` / `ScalarOrMat` sum types with an explicit broadcast;
* fallible code (`raise`, numpy indexing errors) returns `Except`.
-/

/-! ## Scalar-or-array parameters (numpy broadcasting)

`Transmons.__init__` accepts each per-qubit parameter either as a scalar or
as an array of length `nqubits`, and multiplies it by `np.ones(nqubits)`:
a scalar is broadcast to a constant array, an array is left unchanged.
Similarly for the coupling `g` with `np.ones((nqubits, nqubits))`.
-/

/-- A parameter that is either a scalar or a length-`n` vector. -/
inductive ScalarOrVec (n : ℕ) where
  | scalar (c : ℚ)
  | vec (v : Fin n → ℚ)

/-- `x * np.ones(n)`: broadcast a scalar to a constant vector; elementwise
multiplication by ones leaves a vector unchanged. -/
def ScalarOrVec.bc {n : ℕ} : ScalarOrVec n → (Fin n → ℚ)
  | .scalar c => fun _ => c
  | .vec v => v

/-- A parameter that is either a scalar or an `n × n` matrix. -/
inductive ScalarOrMat (n : ℕ) where
  | scalar (c : ℚ)
  | mat (M : Matrix (Fin n) (Fin n) ℚ)

/-- `x * np.ones((n, n))`: broadcast a scalar to a constant matrix;
elementwise multiplication by ones leaves a matrix unchanged. -/
def ScalarOrMat.bc {n : ℕ} : ScalarOrMat n → Matrix (Fin n) (Fin n) ℚ
  | .scalar c => Matrix.of fun _ _ => c
  | .mat M => M

/-! ## Kronecker products and operator lifting (`qubit_operator`)

`scipy.sparse.kron(A, B)` materializes the Kronecker product: for `A` of
size `m × m` and `B` of size `n × n` the result has entry
`(A ⊗ B)[r, c] = A[r / n, c / n] * B[r % n, c % n]`.
-/

/-- `sp.kron`: the Kronecker product as scipy materializes it, with the row
and column index of the product split by division and remainder. -/
def spkron {m n : ℕ} (A : Matrix (Fin m) (Fin m) ℚ) (B : Matrix (Fin n) (Fin n) ℚ) :
    Matrix (Fin (m * n)) (Fin (m * n)) ℚ :=
  Matrix.of fun i k => A i.divNat k.divNat * B i.modNat k.modNat

/-- `qubit_operator(op, j, n)` from `Transmons.__init__`:
`sp.kron(sp.eye(d**j), sp.kron(op, sp.eye(d**(n-j-1))))`, extending the
local operator `op` of the `j`-th subsystem to the whole Hilbert space. -/
def qubit_operator {d : ℕ} (op : Matrix (Fin d) (Fin d) ℚ) (j n : ℕ) :
    Matrix (Fin (d ^ j * (d * d ^ (n - j - 1)))) (Fin (d ^ j * (d * d ^ (n - j - 1)))) ℚ :=
  spkron (1 : Matrix (Fin (d ^ j)) (Fin (d ^ j)) ℚ)
    (spkron op (1 : Matrix (Fin (d ^ (n - j - 1))) (Fin (d ^ (n - j - 1))) ℚ))

/-- For `j < n` the dimension of the lifted operator is `d ^ n`. -/
theorem qubit_dim_eq (d j n : ℕ) (h : j < n) :
    d ^ j * (d * d ^ (n - j - 1)) = d ^ n := by
  calc d ^ j * (d * d ^ (n - j - 1))
      = d ^ j * d ^ (1 + (n - j - 1)) := by rw [pow_add, pow_one]
    _ = d ^ (j + (1 + (n - j - 1))) := (pow_add d j (1 + (n - j - 1))).symm
    _ = d ^ n := by congr 1; omega

/-- `qubit_operator` reindexed onto the canonical full space `Fin (d ^ n)`. -/
def liftOp {d : ℕ} (op : Matrix (Fin d) (Fin d) ℚ) (j n : ℕ) (h : j < n) :
    Matrix (Fin (d ^ n)) (Fin (d ^ n)) ℚ :=
  Matrix.reindex (finCongr (qubit_dim_eq d j n h)) (finCongr (qubit_dim_eq d j n h))
    (qubit_operator op j n)

/-! ## The `Transmons` class (`seeq/models/cqed.py`)

State stored by `__init__`: the broadcast parameter arrays `Ec`, `EJ`, `ng`,
the symmetrized coupling matrix `g`, the precomputed capacitive part `Hcap`,
the lifted number operators `N` and the lifted tunneling operators `HJJ`.
The local dimension is `dim = 2*nmax+1`, the full dimension `dim**nqubits`.
-/

structure Transmons (nq nmax : ℕ) where
  Ec : Fin nq → ℚ
  EJ : Fin nq → ℚ
  ng : Fin nq → ℚ
  g : Matrix (Fin nq) (Fin nq) ℚ
  Hcap : Matrix (Fin ((2 * nmax + 1) ^ nq)) (Fin ((2 * nmax + 1) ^ nq)) ℚ
  Nops : Fin nq → Matrix (Fin ((2 * nmax + 1) ^ nq)) (Fin ((2 * nmax + 1) ^ nq)) ℚ
  HJJ : Fin nq → Matrix (Fin ((2 * nmax + 1) ^ nq)) (Fin ((2 * nmax + 1) ^ nq)) ℚ

/-- The local number operator `sp.diags(np.arange(-nmax, nmax + 1, 1), 0)`:
diagonal with entries `-nmax, ..., nmax`. -/
def numberOp (nmax : ℕ) : Matrix (Fin (2 * nmax + 1)) (Fin (2 * nmax + 1)) ℚ :=
  Matrix.diagonal fun i => (i.val : ℚ) - (nmax : ℚ)

/-- The local raising operator `sp.diags([1.0], [1])`: ones on the first
superdiagonal. Its transpose is the lowering operator `Sdo`. -/
def raiseOp (nmax : ℕ) : Matrix (Fin (2 * nmax + 1)) (Fin (2 * nmax + 1)) ℚ :=
  Matrix.of fun i k => if k.val = i.val + 1 then 1 else 0

/-- `Transmons.__init__(nqubits, Ec, EJ, g, ng, nmax)`. -/
def mkTransmons (nq nmax : ℕ) (Ec EJ ng : ScalarOrVec nq) (g : ScalarOrMat nq) :
    Transmons nq nmax :=
  let EcA := Ec.bc
  let EJA := EJ.bc
  let ngA := ng.bc
  let NN := numberOp nmax
  let Sup := raiseOp nmax
  let Sdo := Sup.transpose
  let Nops : Fin nq → Matrix (Fin ((2 * nmax + 1) ^ nq)) (Fin ((2 * nmax + 1) ^ nq)) ℚ :=
    fun j => liftOp NN j.val nq j.isLt
  let HJJ : Fin nq → Matrix (Fin ((2 * nmax + 1) ^ nq)) (Fin ((2 * nmax + 1) ^ nq)) ℚ :=
    fun j => liftOp ((1 / 2 : ℚ) • (Sup + Sdo)) j.val nq j.isLt
  let gB := g.bc
  { Ec := EcA
    EJ := EJA
    ng := ngA
    g := (1 / 2 : ℚ) • (gB + gB.transpose)
    Hcap := ∑ j : Fin nq, (4 * EcA j) •
      ((Nops j - ngA j • (1 : Matrix (Fin ((2 * nmax + 1) ^ nq)) (Fin ((2 * nmax + 1) ^ nq)) ℚ)) ^ 2)
    Nops := Nops
    HJJ := HJJ }

/-- `Transmons.hamiltonian`: `Hcap + sum((-EJ) * hi) + sum(2*g[i,j]*(N[i]*N[j]))`
over pairs `j < i` with `g[i,j]` nonzero. -/
def Transmons.hamiltonian {nq nmax : ℕ} (t : Transmons nq nmax) :
    Matrix (Fin ((2 * nmax + 1) ^ nq)) (Fin ((2 * nmax + 1) ^ nq)) ℚ :=
  t.Hcap + (∑ j : Fin nq, (-(t.EJ j)) • t.HJJ j)
    + ∑ i : Fin nq, ∑ j : Fin nq,
        if j.val < i.val ∧ t.g i j ≠ 0 then (2 * t.g i j) • (t.Nops i * t.Nops j) else 0

/-- `Transmons.apply` acting on a vector (`_matvec` path): the same three
additive terms applied to `ψ` without forming the full matrix. -/
def Transmons.apply {nq nmax : ℕ} (t : Transmons nq nmax)
    (ψ : Fin ((2 * nmax + 1) ^ nq) → ℚ) : Fin ((2 * nmax + 1) ^ nq) → ℚ :=
  t.Hcap.mulVec ψ - (∑ j : Fin nq, t.EJ j • (t.HJJ j).mulVec ψ)
    + ∑ i : Fin nq, ∑ j : Fin nq,
        if j.val < i.val ∧ t.g i j ≠ 0 then
          (2 * t.g i j) • (t.Nops i).mulVec ((t.Nops j).mulVec ψ)
        else 0

/-- `Transmons.apply` acting on a matrix (`_matmat` path). -/
def Transmons.applyMat {nq nmax : ℕ} (t : Transmons nq nmax)
    (A : Matrix (Fin ((2 * nmax + 1) ^ nq)) (Fin ((2 * nmax + 1) ^ nq)) ℚ) :
    Matrix (Fin ((2 * nmax + 1) ^ nq)) (Fin ((2 * nmax + 1) ^ nq)) ℚ :=
  t.Hcap * A - (∑ j : Fin nq, t.EJ j • (t.HJJ j * A))
    + ∑ i : Fin nq, ∑ j : Fin nq,
        if j.val < i.val ∧ t.g i j ≠ 0 then
          (2 * t.g i j) • (t.Nops i * (t.Nops j * A))
        else 0

/-- `Transmons.tune(EJ=None, g=None)`: shallow copy with the supplied
parameters replaced; a new coupling is broadcast and re-symmetrized. -/
def Transmons.tune {nq nmax : ℕ} (t : Transmons nq nmax)
    (EJn : Option (ScalarOrVec nq)) (gn : Option (ScalarOrMat nq)) : Transmons nq nmax :=
  let t1 := match EJn with
    | none => t
    | some e => { t with EJ := e.bc }
  match gn with
  | none => t1
  | some gp => { t1 with g := (1 / 2 : ℚ) • (gp.bc + gp.bc.transpose) }

/-! ### Helper lemmas: matrix-vector multiplication is additive in the matrix -/

theorem sum_mulVec {ι m n : Type*} [Fintype n] [DecidableEq ι]
    (s : Finset ι) (A : ι → Matrix m n ℚ) (v : n → ℚ) :
    (∑ i ∈ s, A i).mulVec v = ∑ i ∈ s, (A i).mulVec v := by
  induction s using Finset.induction with
  | empty => simp
  | insert h ih =>
    rw [Finset.sum_insert h, Finset.sum_insert h, Matrix.add_mulVec, ih]

theorem ite_mulVec {m n : Type*} [Fintype n] (P : Prop) [Decidable P]
    (A : Matrix m n ℚ) (v : n → ℚ) :
    (if P then A else 0).mulVec v = if P then A.mulVec v else 0 := by
  split <;> simp

theorem ite_matmul {n : Type*} [Fintype n] [DecidableEq n] (P : Prop) [Decidable P]
    (A B : Matrix n n ℚ) :
    (if P then A else 0) * B = if P then A * B else 0 := by
  split <;> simp

/-! ## Claim theorems about `Transmons` -/

/-- C1: for every `Transmons` instance and every vector or matrix of
matching dimension, `apply(x)` equals `hamiltonian()` applied to `x`
(`materialize() @ x`); in this exact-arithmetic model the equality is
on the nose. -/
theorem transmons_apply_matches_hamiltonian {nq nmax : ℕ} (t : Transmons nq nmax)
    (ψ : Fin ((2 * nmax + 1) ^ nq) → ℚ)
    (A : Matrix (Fin ((2 * nmax + 1) ^ nq)) (Fin ((2 * nmax + 1) ^ nq)) ℚ) :
    t.apply ψ = t.hamiltonian.mulVec ψ ∧ t.applyMat A = t.hamiltonian * A := by
  constructor
  · simp only [Transmons.apply, Transmons.hamiltonian, Matrix.add_mulVec, sum_mulVec,
      ite_mulVec, Matrix.smul_mulVec_assoc, neg_smul, Finset.sum_neg_distrib,
      Matrix.neg_mulVec, sub_eq_add_neg, Matrix.zero_mulVec, Matrix.mulVec_mulVec]
  · simp only [Transmons.applyMat, Transmons.hamiltonian, Matrix.add_mul, Finset.sum_mul,
      ite_matmul, smul_mul_assoc, neg_smul, Finset.sum_neg_distrib,
      Matrix.neg_mul, sub_eq_add_neg, Matrix.zero_mul, Matrix.mul_assoc]

/-- C2: the stored coupling matrix equals its own transpose, both after
construction and after any `tune` call that supplies a new coupling,
for every (possibly asymmetric) scalar-or-matrix input. -/
theorem transmons_g_symmetric {nq nmax : ℕ} (Ec EJ ng : ScalarOrVec nq) (g : ScalarOrMat nq)
    (t : Transmons nq nmax) (e : Option (ScalarOrVec nq)) (gp : ScalarOrMat nq) :
    ((mkTransmons nq nmax Ec EJ ng g).g).transpose = (mkTransmons nq nmax Ec EJ ng g).g ∧
    ((t.tune e (some gp)).g).transpose = (t.tune e (some gp)).g := by
  constructor
  · show ((1 / 2 : ℚ) • (g.bc + g.bc.transpose)).transpose = (1 / 2 : ℚ) • (g.bc + g.bc.transpose)
    rw [Matrix.transpose_smul, Matrix.transpose_add, Matrix.transpose_transpose,
      add_comm g.bc.transpose g.bc]
  · cases e <;>
      · show ((1 / 2 : ℚ) • (gp.bc + gp.bc.transpose)).transpose = (1 / 2 : ℚ) • (gp.bc + gp.bc.transpose)
        rw [Matrix.transpose_smul, Matrix.transpose_add, Matrix.transpose_transpose,
          add_comm gp.bc.transpose gp.bc]

/-- C9: `tune` returns a new instance in which every unspecified parameter
(and every cached operator) is inherited unchanged from `t`, and the model
is purely functional so `t` itself is never modified by the call or by any
later use of the returned copy. -/
theorem transmons_tune_frame {nq nmax : ℕ} (t : Transmons nq nmax)
    (e : ScalarOrVec nq) (gp : ScalarOrMat nq) :
    t.tune none none = t ∧
    ((t.tune (some e) none).EJ = e.bc ∧ (t.tune (some e) none).Ec = t.Ec ∧
      (t.tune (some e) none).ng = t.ng ∧ (t.tune (some e) none).g = t.g ∧
      (t.tune (some e) none).Hcap = t.Hcap ∧ (t.tune (some e) none).Nops = t.Nops ∧
      (t.tune (some e) none).HJJ = t.HJJ) ∧
    ((t.tune none (some gp)).g = (1 / 2 : ℚ) • (gp.bc + gp.bc.transpose) ∧
      (t.tune none (some gp)).EJ = t.EJ ∧ (t.tune none (some gp)).Ec = t.Ec ∧
      (t.tune none (some gp)).ng = t.ng ∧ (t.tune none (some gp)).Hcap = t.Hcap ∧
      (t.tune none (some gp)).Nops = t.Nops ∧ (t.tune none (some gp)).HJJ = t.HJJ) ∧
    ((t.tune (some e) (some gp)).EJ = e.bc ∧
      (t.tune (some e) (some gp)).g = (1 / 2 : ℚ) • (gp.bc + gp.bc.transpose) ∧
      (t.tune (some e) (some gp)).Ec = t.Ec ∧ (t.tune (some e) (some gp)).ng = t.ng ∧
      (t.tune (some e) (some gp)).Hcap = t.Hcap ∧
      (t.tune (some e) (some gp)).Nops = t.Nops ∧
      (t.tune (some e) (some gp)).HJJ = t.HJJ) := by
  refine ⟨rfl, ⟨rfl, rfl, rfl, rfl, rfl, rfl, rfl⟩, ⟨rfl, rfl, rfl, rfl, rfl, rfl, rfl⟩,
    ⟨rfl, rfl, rfl, rfl, rfl, rfl, rfl⟩⟩

/-- C10: scalar `Ec`, `EJ`, `ng` inputs are broadcast to constant arrays of
length `nqubits`, and a scalar coupling `g` is broadcast to a constant
`nqubits × nqubits` matrix before symmetrization, so every subsystem (and
every pair) receives the same value. -/
theorem transmons_scalar_broadcast (nq nmax : ℕ) (e ej n gs : ℚ) :
    (∀ j, (mkTransmons nq nmax (.scalar e) (.scalar ej) (.scalar n) (.scalar gs)).Ec j = e) ∧
    (∀ j, (mkTransmons nq nmax (.scalar e) (.scalar ej) (.scalar n) (.scalar gs)).EJ j = ej) ∧
    (∀ j, (mkTransmons nq nmax (.scalar e) (.scalar ej) (.scalar n) (.scalar gs)).ng j = n) ∧
    (∀ i k, (ScalarOrMat.scalar gs : ScalarOrMat nq).bc i k = gs) ∧
    (∀ i k, (mkTransmons nq nmax (.scalar e) (.scalar ej) (.scalar n) (.scalar gs)).g i k = gs) := by
  refine ⟨fun j => rfl, fun j => rfl, fun j => rfl, fun i k => rfl, fun i k => ?_⟩
  show (1 / 2 : ℚ) * (gs + gs) = gs
  ring

/-! ## Claim C5: `qubit_operator` is identity-padded Kronecker composition -/

/-- C5: the lifted operator built by `qubit_operator(op, j, n)` equals the
Kronecker product `I(d^j) ⊗ op ⊗ I(d^(n-j-1))` (stated via Mathlib's
`kroneckerMap` under the canonical division/remainder index decomposition),
it acts on a product space whose dimension is `d ^ n` when `j < n`, and
entrywise it acts as `op` on subsystem `j` and as the identity on the
environment digits. -/
theorem qubit_operator_is_kron {d : ℕ} (op : Matrix (Fin d) (Fin d) ℚ) (j n : ℕ)
    (h : j < n) (i k : Fin (d ^ j * (d * d ^ (n - j - 1)))) :
    (d ^ j * (d * d ^ (n - j - 1)) = d ^ n) ∧
    qubit_operator op j n i k =
      Matrix.kroneckerMap (· * ·) (1 : Matrix (Fin (d ^ j)) (Fin (d ^ j)) ℚ)
        (Matrix.kroneckerMap (· * ·) op
          (1 : Matrix (Fin (d ^ (n - j - 1))) (Fin (d ^ (n - j - 1))) ℚ))
        (i.divNat, i.modNat.divNat, i.modNat.modNat)
        (k.divNat, k.modNat.divNat, k.modNat.modNat) ∧
    qubit_operator op j n i k =
      (if i.divNat = k.divNat ∧ i.modNat.modNat = k.modNat.modNat
        then op i.modNat.divNat k.modNat.divNat else 0) := by
  refine ⟨qubit_dim_eq d j n h, rfl, ?_⟩
  simp only [qubit_operator, spkron, Matrix.of_apply]
  by_cases h1 : i.divNat = k.divNat <;> by_cases h2 : i.modNat.modNat = k.modNat.modNat <;>
    simp [Matrix.one_apply, h1, h2]

/-- A concrete local operator used to instantiate `qubit_operator_is_kron`. -/
def sampleOp : Matrix (Fin 2) (Fin 2) ℚ := Matrix.of fun i k => if i = k then 3 else 5

/-- A concrete row index in the lifted space for one qubit of dimension 2. -/
def sampleI : Fin (2 ^ 0 * (2 * 2 ^ (1 - 0 - 1))) := ⟨0, by norm_num⟩

/-- A concrete column index in the lifted space for one qubit of dimension 2. -/
def sampleK : Fin (2 ^ 0 * (2 * 2 ^ (1 - 0 - 1))) := ⟨1, by norm_num⟩

/-- Witness for C5 at `d = 2`, `j = 0`, `n = 1`. -/
theorem qubit_operator_is_kron_witness :
    (2 ^ 0 * (2 * 2 ^ (1 - 0 - 1)) = 2 ^ 1) ∧
    qubit_operator sampleOp 0 1 sampleI sampleK =
      Matrix.kroneckerMap (· * ·) (1 : Matrix (Fin (2 ^ 0)) (Fin (2 ^ 0)) ℚ)
        (Matrix.kroneckerMap (· * ·) sampleOp
          (1 : Matrix (Fin (2 ^ (1 - 0 - 1))) (Fin (2 ^ (1 - 0 - 1))) ℚ))
        (sampleI.divNat, sampleI.modNat.divNat, sampleI.modNat.modNat)
        (sampleK.divNat, sampleK.modNat.divNat, sampleK.modNat.modNat) ∧
    qubit_operator sampleOp 0 1 sampleI sampleK =
      (if sampleI.divNat = sampleK.divNat ∧ sampleI.modNat.modNat = sampleK.modNat.modNat
        then sampleOp sampleI.modNat.divNat sampleK.modNat.divNat else 0) :=
  qubit_operator_is_kron sampleOp 0 1 (by norm_num) sampleI sampleK

/-! ## Claims about the eigensolver wrapper (`seeq/tools.py`)

`lowest_eigenvalues(H, neig)` calls `sp.linalg.eigsh(..., which='SA')` and
returns `np.sort(λ)`; `lowest_eigenstates` additionally computes
`ndx = np.argsort(λ)` and returns `λ[ndx], ψ[:,ndx]`. The iterative solver
is an external collaborator whose output order is unspecified, so its raw
output is modelled as an arbitrary input. -/

/-- `np.sort` applied to the solver's raw eigenvalue list. -/
def lowest_eigenvalues (raw : List ℚ) : List ℚ :=
  raw.insertionSort (· ≤ ·)

/-- `lowest_eigenstates` post-processing: `ndx = np.argsort(λ)` and the
return value `(λ[ndx], ψ[:, ndx])`, with the raw eigenvalues `lam` and the
raw eigenvector columns of `psi` as produced by the solver. -/
def lowest_eigenstates {k n : ℕ} (lam : Fin k → ℚ) (psi : Matrix (Fin n) (Fin k) ℚ) :
    (Fin k → ℚ) × Matrix (Fin n) (Fin k) ℚ :=
  (lam ∘ Tuple.sort lam, psi.submatrix id (Tuple.sort lam))

/-- C6: wrapped eigenvalues are returned non-decreasing, with the length of
the raw solver output, invariant under any reordering (permutation) of the
solver's raw output; and `lowest_eigenstates` sorts the eigenvalues
ascending while permuting the eigenvector columns by the same permutation,
so column `i` stays paired with the `i`-th sorted eigenvalue. -/
theorem eigen_sort_spec (raw : List ℚ) {k n : ℕ} (lam : Fin k → ℚ)
    (psi : Matrix (Fin n) (Fin k) ℚ) :
    (lowest_eigenvalues raw).Sorted (· ≤ ·) ∧
    (lowest_eigenvalues raw).length = raw.length ∧
    (∀ raw2 : List ℚ, raw.Perm raw2 → lowest_eigenvalues raw2 = lowest_eigenvalues raw) ∧
    Monotone (lowest_eigenstates lam psi).1 ∧
    (∃ σ : Equiv.Perm (Fin k), (lowest_eigenstates lam psi).1 = lam ∘ σ ∧
      (lowest_eigenstates lam psi).2 = psi.submatrix id σ) := by
  refine ⟨List.sorted_insertionSort _ raw, (List.perm_insertionSort _ raw).length_eq, ?_,
    Tuple.monotone_sort lam, ⟨Tuple.sort lam, rfl, rfl⟩⟩
  intro raw2 hp
  exact List.eq_of_perm_of_sorted
    (((List.perm_insertionSort _ raw2).trans hp.symm).trans
      (List.perm_insertionSort _ raw).symm)
    (List.sorted_insertionSort _ raw2) (List.sorted_insertionSort _ raw)

/-- Witness for C6: re-sorting is invariant under a concrete reordering of
the solver output, and the result is sorted. -/
theorem eigen_sort_spec_witness :
    lowest_eigenvalues [1, 3, 2] = lowest_eigenvalues [3, 1, 2] ∧
    (lowest_eigenvalues [3, 1, 2]).Sorted (· ≤ ·) :=
  ⟨(eigen_sort_spec [3, 1, 2] (fun _ : Fin 1 => 0) (0 : Matrix (Fin 1) (Fin 1) ℚ)).2.2.1
      [1, 3, 2] (List.Perm.swap 1 3 [2]),
   (eigen_sort_spec [3, 1, 2] (fun _ : Fin 1 => 0) (0 : Matrix (Fin 1) (Fin 1) ℚ)).1⟩

/-! ## The regular lattice (`seeq/models/lattice.py`)

`Regular3DLattice.__init__(sizes, hopping, r0, condition)`:
1. enumerate `coord = [(X,Y,Z) for X in range(X0, X0+Lx) for Y in ... for Z
   in ... if condition(X,Y,Z)]`;
2. build `ndx_map = {vector: ndx for ndx, vector in enumerate(coord)}`;
3. assemble `hops = np.array([(J, i, ndx_map[dest]) for i, orig in
   enumerate(coord) for J, dest in hopping(*orig) if dest in ndx_map])`;
4. build `H = sp.csr_matrix((hops[:,0], (hops[:,1], hops[:,2])))`, which
   sums duplicate (row, column) entries.
When the comprehension in step 3 is empty, `np.array([])` is one-dimensional
and the fancy index `hops[:,0]` raises `IndexError`; this is modelled as the
`Except.error` branch of `buildLattice`.
-/

abbrev Coord := ℤ × ℤ × ℤ

/-- `range(x0, x0 + len)` as a list of integers. -/
def axisRange (x0 : ℤ) (len : ℕ) : List ℤ :=
  (List.range len).map fun i : ℕ => x0 + (i : ℤ)

/-- The admitted coordinates, enumerated with `X` in the outer loop and `Z`
in the inner loop, keeping only those satisfying `condition`. -/
def latticeCoords (sizes : ℕ × ℕ × ℕ) (r0 : Coord) (cond : ℤ → ℤ → ℤ → Bool) :
    List Coord :=
  (axisRange r0.1 sizes.1).flatMap fun X =>
    (axisRange r0.2.1 sizes.2.1).flatMap fun Y =>
      ((axisRange r0.2.2 sizes.2.2).filter fun Z => cond X Y Z).map fun Z => (X, Y, Z)

/-- Python dictionary built by `{vector: ndx for ndx, vector in
enumerate(coord)}`, with later insertions overwriting earlier ones; the
recursion gives the tail (larger enumeration indices) priority. -/
def ndxMapAux (base : ℕ) : List Coord → Coord → Option ℕ
  | [], _ => none
  | v :: rest, r =>
    match ndxMapAux (base + 1) rest r with
    | some i => some i
    | none => if r = v then some base else none

/-- `ndx_map` lookup: coordinate to enumeration index. -/
def ndxMap (coord : List Coord) : Coord → Option ℕ :=
  ndxMapAux 0 coord

/-- `hopping(*orig)`: the hopping rule applied to a coordinate triple. -/
def hopAt (hopping : ℤ → ℤ → ℤ → List (ℚ × Coord)) (c : Coord) : List (ℚ × Coord) :=
  hopping c.1 c.2.1 c.2.2

/-- The `(J, i, ndx_map[dest])` triples contributed by the site with
enumeration index `i`; pairs whose destination is not in `ndx_map` are
dropped by the comprehension guard. -/
def siteHops (all : List Coord) (hopping : ℤ → ℤ → ℤ → List (ℚ × Coord))
    (i : ℕ) (orig : Coord) : List (ℚ × ℕ × ℕ) :=
  (hopAt hopping orig).filterMap fun p => (ndxMap all p.2).map fun k => (p.1, i, k)

/-- The nested comprehension over `enumerate(coord)` starting at index `b`. -/
def mkHopsFrom (all : List Coord) (hopping : ℤ → ℤ → ℤ → List (ℚ × Coord)) :
    ℕ → List Coord → List (ℚ × ℕ × ℕ)
  | _, [] => []
  | b, orig :: rest => siteHops all hopping b orig ++ mkHopsFrom all hopping (b + 1) rest

/-- The full `hops` triple list. -/
def mkHops (coord : List Coord) (hopping : ℤ → ℤ → ℤ → List (ℚ × Coord)) :
    List (ℚ × ℕ × ℕ) :=
  mkHopsFrom coord hopping 0 coord

/-- `sp.csr_matrix((data, (rows, cols)))` semantics: the matrix entry at
`(i, k)` is the sum of all data values carrying that row and column. -/
def csrEntry (hops : List (ℚ × ℕ × ℕ)) (i k : ℕ) : ℚ :=
  ((hops.filter fun t => decide (t.2.1 = i ∧ t.2.2 = k)).map Prod.fst).sum

/-- The lattice state needed by the claims: the admitted coordinate list and
the assembled triple list (the matrix is its `csrEntry` view). -/
structure Regular3DLattice where
  coord : List Coord
  hops : List (ℚ × ℕ × ℕ)
deriving DecidableEq

/-- `self.size = H.shape[0] = len(ndx_map)` (= number of admitted sites). -/
def Regular3DLattice.size (L : Regular3DLattice) : ℕ := L.coord.length

/-- The assembled sparse matrix, viewed entrywise. -/
def Regular3DLattice.H (L : Regular3DLattice) (i k : ℕ) : ℚ := csrEntry L.hops i k

/-- `Regular3DLattice.__init__`; the error branch is the numpy `IndexError`
raised by `hops[:,0]` when the triple list is empty. -/
def buildLattice (sizes : ℕ × ℕ × ℕ) (hopping : ℤ → ℤ → ℤ → List (ℚ × Coord))
    (r0 : Coord) (cond : ℤ → ℤ → ℤ → Bool) : Except String Regular3DLattice :=
  if (mkHops (latticeCoords sizes r0 cond) hopping).isEmpty then
    Except.error "IndexError: too many indices for array"
  else
    Except.ok ⟨latticeCoords sizes r0 cond, mkHops (latticeCoords sizes r0 cond) hopping⟩

/-- `Regular3DLattice.coupling_at(r, g)`: raises when `r` is not a key of
`ndx_map`, otherwise returns `np.zeros(size)` with `g` written at the index
of `r`. -/
def Regular3DLattice.coupling_at (L : Regular3DLattice) (r : Coord) (g : ℚ) :
    Except String (List ℚ) :=
  match ndxMap L.coord r with
  | none => Except.error "InvalidPosition: emitter position is not in the lattice"
  | some i => Except.ok ((List.range L.size).map fun j => if j = i then g else 0)

/-! ### Dictionary lookup lemmas -/

/-- The dictionary lookup fails exactly on coordinates never inserted. -/
theorem ndxMapAux_eq_none {l : List Coord} {r : Coord} :
    ∀ base : ℕ, ndxMapAux base l r = none ↔ r ∉ l := by
  induction l with
  | nil => intro base; simp [ndxMapAux]
  | cons v rest ih =>
    intro base
    rw [ndxMapAux]
    cases hm : ndxMapAux (base + 1) rest r with
    | some i =>
      have hr : r ∈ rest := by
        by_contra hc
        rw [← ih (base + 1)] at hc
        rw [hc] at hm
        cases hm
      simp [hr]
    | none =>
      have hr : r ∉ rest := (ih (base + 1)).mp hm
      by_cases hv : r = v <;> simp [hv, hr]

/-- A successful dictionary lookup returns a valid enumeration index whose
entry is the looked-up coordinate. -/
theorem ndxMapAux_some {l : List Coord} {r : Coord} :
    ∀ base i : ℕ, ndxMapAux base l r = some i →
      ∃ m, i = base + m ∧ m < l.length ∧ l.getD m (0, 0, 0) = r := by
  induction l with
  | nil => intro base i h; cases h
  | cons v rest ih =>
    intro base i h
    rw [ndxMapAux] at h
    cases hm : ndxMapAux (base + 1) rest r with
    | some i2 =>
      rw [hm] at h
      obtain ⟨m, hm1, hm2, hm3⟩ := ih (base + 1) i2 hm
      injection h with h2
      exact ⟨m + 1, by omega, by simpa using hm2, by simpa using hm3⟩
    | none =>
      rw [hm] at h
      by_cases hv : r = v
      · rw [if_pos hv] at h
        cases h
        exact ⟨0, by omega, by simp, hv.symm⟩
      · rw [if_neg hv] at h
        cases h

/-- On a duplicate-free list the dictionary maps the `m`-th inserted
coordinate back to `m`. -/
theorem ndxMapAux_getD {l : List Coord} (hnd : l.Nodup) :
    ∀ base m : ℕ, m < l.length →
      ndxMapAux base l (l.getD m (0, 0, 0)) = some (base + m) := by
  induction l with
  | nil => intro base m hm; cases hm
  | cons v rest ih =>
    intro base m hm
    rw [ndxMapAux]
    cases m with
    | zero =>
      have hv : v ∉ rest := (List.nodup_cons.mp hnd).1
      have : ndxMapAux (base + 1) rest v = none := (ndxMapAux_eq_none (base + 1)).mpr hv
      simp [this]
    | succ m2 =>
      have hm2 : m2 < rest.length := by rw [List.length_cons] at hm; omega
      have hrec := ih (List.nodup_cons.mp hnd).2 (base + 1) m2 hm2
      simp only [List.getD_cons_succ, hrec]
      congr 1
      omega

/-! ### Enumeration lemmas -/

/-- Strict lexicographic order on coordinates with `x` most significant. -/
def lexLt (a b : Coord) : Prop :=
  a.1 < b.1 ∨ (a.1 = b.1 ∧ (a.2.1 < b.2.1 ∨ (a.2.1 = b.2.1 ∧ a.2.2 < b.2.2)))

theorem axisRange_pairwise (x0 : ℤ) (len : ℕ) :
    (axisRange x0 len).Pairwise (· < ·) := by
  rw [axisRange]
  exact List.Pairwise.map (fun i : ℕ => x0 + (i : ℤ))
    (fun a b hab => by show x0 + (a : ℤ) < x0 + (b : ℤ); omega)
    (List.pairwise_lt_range len)

theorem axisRange_mem (x0 : ℤ) (len : ℕ) (x : ℤ) :
    x ∈ axisRange x0 len ↔ x0 ≤ x ∧ x < x0 + len := by
  simp only [axisRange, List.mem_map, List.mem_range]
  constructor
  · rintro ⟨i, hi, rfl⟩
    omega
  · intro h
    exact ⟨(x - x0).toNat, by omega, by omega⟩

/-- A member of the inner (fixed `X`, fixed `Y`) list has those components. -/
theorem mem_innerZ {Y0 : ℤ} {Lz : ℕ} {cond : ℤ → ℤ → ℤ → Bool} {X Y : ℤ} {a : Coord}
    (h : a ∈ ((axisRange Y0 Lz).filter fun Z => cond X Y Z).map fun Z => (X, Y, Z)) :
    a.1 = X ∧ a.2.1 = Y := by
  obtain ⟨Z, _, rfl⟩ := List.mem_map.mp h
  exact ⟨rfl, rfl⟩

/-- A member of the middle (fixed `X`) list has that first component. -/
theorem mem_innerY {Y0 Z0 : ℤ} {Ly Lz : ℕ} {cond : ℤ → ℤ → ℤ → Bool} {X : ℤ} {a : Coord}
    (h : a ∈ (axisRange Y0 Ly).flatMap fun Y =>
      ((axisRange Z0 Lz).filter fun Z => cond X Y Z).map fun Z => (X, Y, Z)) :
    a.1 = X := by
  obtain ⟨Y, _, hm⟩ := List.mem_flatMap.mp h
  exact (mem_innerZ hm).1

/-- C4 order lemma: the admitted coordinates are enumerated in strictly
increasing lexicographic order, `x` varying slowest. -/
theorem latticeCoords_pairwise (sizes : ℕ × ℕ × ℕ) (r0 : Coord)
    (cond : ℤ → ℤ → ℤ → Bool) :
    (latticeCoords sizes r0 cond).Pairwise lexLt := by
  rw [latticeCoords, List.pairwise_flatMap]
  constructor
  · intro X _
    rw [List.pairwise_flatMap]
    constructor
    · intro Y _
      rw [List.pairwise_map]
      exact ((axisRange_pairwise r0.2.2 sizes.2.2).filter _).imp
        fun hz => Or.inr ⟨rfl, Or.inr ⟨rfl, hz⟩⟩
    · exact (axisRange_pairwise r0.2.1 sizes.2.1).imp fun {Y1 Y2} hy => by
        intro a ha b hb
        obtain ⟨ha1, ha2⟩ := mem_innerZ ha
        obtain ⟨hb1, hb2⟩ := mem_innerZ hb
        exact Or.inr ⟨ha1.trans hb1.symm, Or.inl (by rw [ha2, hb2]; exact hy)⟩
  · exact (axisRange_pairwise r0.1 sizes.1).imp fun {X1 X2} hx => by
      intro a ha b hb
      rw [← mem_innerY ha, ← mem_innerY hb] at hx
      exact Or.inl hx

/-- C4 freshness lemma: no coordinate is enumerated twice. -/
theorem latticeCoords_nodup (sizes : ℕ × ℕ × ℕ) (r0 : Coord)
    (cond : ℤ → ℤ → ℤ → Bool) :
    (latticeCoords sizes r0 cond).Nodup :=
  (latticeCoords_pairwise sizes r0 cond).imp fun {a b} hab => by
    rintro rfl
    rcases hab with h | ⟨_, h | ⟨_, h⟩⟩ <;> exact absurd h (lt_irrefl _)

/-- C4 coverage lemma: a coordinate is enumerated iff it lies in the
axis-aligned box spanned by `r0` and `sizes` and satisfies the predicate. -/
theorem latticeCoords_mem (sizes : ℕ × ℕ × ℕ) (r0 : Coord)
    (cond : ℤ → ℤ → ℤ → Bool) (r : Coord) :
    r ∈ latticeCoords sizes r0 cond ↔
      (r0.1 ≤ r.1 ∧ r.1 < r0.1 + sizes.1 ∧
       r0.2.1 ≤ r.2.1 ∧ r.2.1 < r0.2.1 + sizes.2.1 ∧
       r0.2.2 ≤ r.2.2 ∧ r.2.2 < r0.2.2 + sizes.2.2) ∧
      cond r.1 r.2.1 r.2.2 = true := by
  obtain ⟨x, y, z⟩ := r
  simp only [latticeCoords, List.mem_flatMap, List.mem_map, List.mem_filter,
    axisRange_mem]
  constructor
  · rintro ⟨X, hX, Y, hY, Z, ⟨hZ, hc⟩, heq⟩
    obtain ⟨rfl, rfl, rfl⟩ : X = x ∧ Y = y ∧ Z = z := by
      simpa [Prod.ext_iff] using heq
    exact ⟨⟨hX.1, hX.2, hY.1, hY.2, hZ.1, hZ.2⟩, hc⟩
  · rintro ⟨⟨h1, h2, h3, h4, h5, h6⟩, hc⟩
    exact ⟨x, ⟨h1, h2⟩, y, ⟨h3, h4⟩, z, ⟨⟨h5, h6⟩, hc⟩, rfl⟩

/-! ### Sparse assembly lemmas -/

theorem csrEntry_append (a b : List (ℚ × ℕ × ℕ)) (i k : ℕ) :
    csrEntry (a ++ b) i k = csrEntry a i k + csrEntry b i k := by
  simp [csrEntry, List.filter_append]

/-- A site block only contributes to its own row. -/
theorem csrEntry_siteHops_ne {all : List Coord} {hopping : ℤ → ℤ → ℤ → List (ℚ × Coord)}
    {b : ℕ} {orig : Coord} {i k : ℕ} (h : i ≠ b) :
    csrEntry (siteHops all hopping b orig) i k = 0 := by
  have hnil : (siteHops all hopping b orig).filter
      (fun t => decide (t.2.1 = i ∧ t.2.2 = k)) = [] := by
    rw [List.filter_eq_nil_iff]
    intro t ht
    obtain ⟨p, hp, hm⟩ := List.mem_filterMap.mp ht
    cases hnd : ndxMap all p.2 with
    | none => rw [hnd] at hm; cases hm
    | some m =>
      rw [hnd] at hm
      injection hm with hm2
      subst hm2
      simp only [decide_eq_true_eq, not_and]
      exact fun hbi _ => h hbi.symm
  unfold csrEntry
  rw [hnil]
  rfl

/-- On its own row a site block contributes, at column `k`, the sum of the
weights of the pairs whose destination is mapped to `k`. -/
theorem csrEntry_siteHops_eq (all : List Coord) (hopping : ℤ → ℤ → ℤ → List (ℚ × Coord))
    (b : ℕ) (orig : Coord) (k : ℕ) :
    csrEntry (siteHops all hopping b orig) b k =
      (((hopAt hopping orig).filter fun p => decide (ndxMap all p.2 = some k)).map
        Prod.fst).sum := by
  rw [csrEntry, siteHops]
  induction hopAt hopping orig with
  | nil => simp
  | cons p ps ih =>
    rw [List.filterMap_cons, List.filter_cons]
    cases hnd : ndxMap all p.2 with
    | none => simpa [hnd] using ih
    | some m =>
      by_cases hm : m = k
      · subst hm
        simpa [hnd] using congrArg (p.1 + ·) ih
      · simpa [hnd, hm] using ih

/-- Rows strictly below the starting enumeration index receive nothing. -/
theorem csrEntry_mkHopsFrom_lt {all : List Coord}
    {hopping : ℤ → ℤ → ℤ → List (ℚ × Coord)} :
    ∀ (l : List Coord) (b i k : ℕ), i < b →
      csrEntry (mkHopsFrom all hopping b l) i k = 0 := by
  intro l
  induction l with
  | nil => intro b i k _; simp [mkHopsFrom, csrEntry]
  | cons orig rest ih =>
    intro b i k h
    rw [mkHopsFrom, csrEntry_append, csrEntry_siteHops_ne (by omega),
      ih (b + 1) i k (by omega)]
    norm_num

/-- Row `b + i` of the assembled triples is exactly the contribution of the
rule evaluated at the `i`-th remaining site. -/
theorem csrEntry_mkHopsFrom (all : List Coord)
    (hopping : ℤ → ℤ → ℤ → List (ℚ × Coord)) :
    ∀ (l : List Coord) (b i k : ℕ), i < l.length →
      csrEntry (mkHopsFrom all hopping b l) (b + i) k =
        (((hopAt hopping (l.getD i (0, 0, 0))).filter fun p =>
          decide (ndxMap all p.2 = some k)).map Prod.fst).sum := by
  intro l
  induction l with
  | nil => intro b i k h; cases h
  | cons orig rest ih =>
    intro b i k h
    rw [mkHopsFrom, csrEntry_append]
    cases i with
    | zero =>
      rw [Nat.add_zero, csrEntry_siteHops_eq,
        csrEntry_mkHopsFrom_lt rest (b + 1) b k (by omega)]
      simp
    | succ m =>
      rw [csrEntry_siteHops_ne (by omega)]
      have : b + (m + 1) = (b + 1) + m := by omega
      rw [this, ih (b + 1) m k (by simpa using h)]
      simp

/-! ## Claim theorems about the lattice -/

/-- C4: site enumeration is lexicographic by `(x, y, z)` with `x` varying
slowest, covers exactly the admitted box coordinates, never repeats a
coordinate, and `ndx_map` is the dense 0-based bijection sending the `i`-th
enumerated coordinate to `i` (and nothing else to anything). -/
theorem lattice_index_bijection (sizes : ℕ × ℕ × ℕ) (r0 : Coord)
    (cond : ℤ → ℤ → ℤ → Bool) :
    (latticeCoords sizes r0 cond).Pairwise lexLt ∧
    (latticeCoords sizes r0 cond).Nodup ∧
    (∀ r : Coord, r ∈ latticeCoords sizes r0 cond ↔
      (r0.1 ≤ r.1 ∧ r.1 < r0.1 + sizes.1 ∧
       r0.2.1 ≤ r.2.1 ∧ r.2.1 < r0.2.1 + sizes.2.1 ∧
       r0.2.2 ≤ r.2.2 ∧ r.2.2 < r0.2.2 + sizes.2.2) ∧
      cond r.1 r.2.1 r.2.2 = true) ∧
    (∀ i, i < (latticeCoords sizes r0 cond).length →
      ndxMap (latticeCoords sizes r0 cond)
        ((latticeCoords sizes r0 cond).getD i (0, 0, 0)) = some i) ∧
    (∀ (r : Coord) (i : ℕ), ndxMap (latticeCoords sizes r0 cond) r = some i →
      i < (latticeCoords sizes r0 cond).length ∧
      (latticeCoords sizes r0 cond).getD i (0, 0, 0) = r) := by
  refine ⟨latticeCoords_pairwise sizes r0 cond, latticeCoords_nodup sizes r0 cond,
    latticeCoords_mem sizes r0 cond, ?_, ?_⟩
  · intro i hi
    simpa using ndxMapAux_getD (latticeCoords_nodup sizes r0 cond) 0 i hi
  · intro r i h
    obtain ⟨m, hm1, hm2, hm3⟩ := ndxMapAux_some 0 i h
    have hmi : m = i := by omega
    subst hmi
    exact ⟨hm2, hm3⟩

/-- Witness for C4 on a concrete 2-site chain box. -/
theorem lattice_index_bijection_witness :
    ndxMap (latticeCoords (2, 1, 1) (0, 0, 0) (fun _ _ _ => true))
      ((latticeCoords (2, 1, 1) (0, 0, 0) (fun _ _ _ => true)).getD 1 (0, 0, 0)) =
      some 1 :=
  (lattice_index_bijection (2, 1, 1) (0, 0, 0) (fun _ _ _ => true)).2.2.2.1 1 (by decide)

/-- C3 (amended): whenever construction succeeds, the assembled matrix
entry `(i, k)` is the sum of all weights returned by the rule at site `i`
whose target coordinate is site `k`'s coordinate; pairs whose target is not
admitted are dropped by the comprehension guard, and duplicate (row, column)
contributions are summed. -/
theorem lattice_entry_sums (sizes : ℕ × ℕ × ℕ)
    (hopping : ℤ → ℤ → ℤ → List (ℚ × Coord)) (r0 : Coord)
    (cond : ℤ → ℤ → ℤ → Bool) (L : Regular3DLattice)
    (hL : buildLattice sizes hopping r0 cond = Except.ok L) (i k : ℕ)
    (hi : i < L.size) (hk : k < L.size) :
    L.H i k = (((hopAt hopping (L.coord.getD i (0, 0, 0))).filter fun p =>
      decide (p.2 = L.coord.getD k (0, 0, 0))).map Prod.fst).sum := by
  unfold buildLattice at hL
  split at hL
  · cases hL
  · injection hL with hL2
    subst hL2
    have hk2 : k < (latticeCoords sizes r0 cond).length := hk
    have hmain := csrEntry_mkHopsFrom (latticeCoords sizes r0 cond) hopping
      (latticeCoords sizes r0 cond) 0 i k hi
    rw [Nat.zero_add] at hmain
    show csrEntry (mkHops (latticeCoords sizes r0 cond) hopping) i k =
      (((hopAt hopping ((latticeCoords sizes r0 cond).getD i (0, 0, 0))).filter fun p =>
        decide (p.2 = (latticeCoords sizes r0 cond).getD k (0, 0, 0))).map Prod.fst).sum
    rw [mkHops, hmain]
    refine congrArg (fun l2 => (List.map Prod.fst l2).sum) (List.filter_congr ?_)
    intro p _
    rw [decide_eq_decide]
    constructor
    · intro hnd
      obtain ⟨m, hm1, hm2, hm3⟩ := ndxMapAux_some 0 k hnd
      have hmk : m = k := by omega
      subst hmk
      exact hm3.symm
    · intro hpk
      rw [hpk]
      simpa using ndxMapAux_getD (latticeCoords_nodup sizes r0 cond) 0 k hk2

/-- Refutation of C3 as stated: a pair whose target is not admitted can
cause an error; with one admitted site whose rule returns only a
non-admitted target, every pair is dropped and construction raises the
numpy `IndexError` instead of assembling a matrix. -/
theorem lattice_dropped_pair_error :
    buildLattice (1, 1, 1) (fun X Y Z => [(7, (X + 1, Y, Z))]) (0, 0, 0)
      (fun _ _ _ => true) =
      Except.error "IndexError: too many indices for array" := by rfl

/-- The uniform 1D chain rule with on-site energy 2 and hopping 3. -/
def chainHop : ℤ → ℤ → ℤ → List (ℚ × Coord) :=
  fun X Y Z => [(2, (X, Y, Z)), (3, (X + 1, Y, Z)), (3, (X - 1, Y, Z))]

/-- Witness for C3 on a concrete 2-site chain. -/
theorem lattice_entry_sums_witness :
    ∃ L, buildLattice (2, 1, 1) chainHop (0, 0, 0) (fun _ _ _ => true) =
        Except.ok L ∧
      L.H 0 1 = (((hopAt chainHop (L.coord.getD 0 (0, 0, 0))).filter fun p =>
        decide (p.2 = L.coord.getD 1 (0, 0, 0))).map Prod.fst).sum := by
  refine ⟨_, rfl, ?_⟩
  exact lattice_entry_sums (2, 1, 1) chainHop (0, 0, 0) (fun _ _ _ => true) _ rfl 0 1
    (by decide) (by decide)

/-- C7: `coupling_at(r, strength)` fails with `InvalidPosition` exactly when
`r` is not admitted; on an admitted `r` it returns the dense length-`N`
vector whose entry at the index of `r` is `strength` and whose other entries
are zero. -/
theorem coupling_at_spec (sizes : ℕ × ℕ × ℕ)
    (hopping : ℤ → ℤ → ℤ → List (ℚ × Coord)) (r0 : Coord)
    (cond : ℤ → ℤ → ℤ → Bool) (L : Regular3DLattice)
    (_hL : buildLattice sizes hopping r0 cond = Except.ok L)
    (r : Coord) (strength : ℚ) :
    ((∃ msg, L.coupling_at r strength = Except.error msg) ↔ r ∉ L.coord) ∧
    (∀ v, L.coupling_at r strength = Except.ok v →
      v.length = L.size ∧
      ∀ j, j < L.size →
        v.getD j 0 = if ndxMap L.coord r = some j then strength else 0) := by
  cases hnd : ndxMap L.coord r with
  | none =>
    refine ⟨⟨fun _ => (ndxMapAux_eq_none 0).mp hnd, fun _ => ?_⟩, fun v hv => ?_⟩
    · exact ⟨"InvalidPosition: emitter position is not in the lattice",
        by simp [Regular3DLattice.coupling_at, hnd]⟩
    · simp [Regular3DLattice.coupling_at, hnd] at hv
  | some idx =>
    constructor
    · constructor
      · rintro ⟨msg, hmsg⟩
        simp [Regular3DLattice.coupling_at, hnd] at hmsg
      · intro hno
        have h0 : ndxMap L.coord r = none := (ndxMapAux_eq_none 0).mpr hno
        rw [h0] at hnd
        cases hnd
    · intro v hv
      simp only [Regular3DLattice.coupling_at, hnd] at hv
      injection hv with hv2
      subst hv2
      refine ⟨by simp, fun j hj => ?_⟩
      rw [List.getD_eq_getElem _ _ (by simpa using hj), List.getElem_map,
        List.getElem_range]
      by_cases hji : j = idx
      · subst hji
        simp
      · simp [hji, Ne.symm hji]

/-- Witness for C7: on a concrete 2-site chain, an absent coordinate is
rejected with `InvalidPosition`. -/
theorem coupling_at_spec_witness :
    ∃ L, buildLattice (2, 1, 1) chainHop (0, 0, 0) (fun _ _ _ => true) =
        Except.ok L ∧
      ((∃ msg, L.coupling_at (5, 5, 5) 4 = Except.error msg) ↔
        ((5, 5, 5) : Coord) ∉ L.coord) := by
  refine ⟨_, rfl, ?_⟩
  exact (coupling_at_spec (2, 1, 1) chainHop (0, 0, 0) (fun _ _ _ => true) _ rfl
    (5, 5, 5) 4).1

/-- An empty triple list forces every destination lookup to have failed. -/
theorem mkHopsFrom_eq_nil {all : List Coord}
    {hopping : ℤ → ℤ → ℤ → List (ℚ × Coord)} :
    ∀ (l : List Coord) (b : ℕ), mkHopsFrom all hopping b l = [] →
      ∀ orig ∈ l, ∀ p ∈ hopAt hopping orig, ndxMap all p.2 = none := by
  intro l
  induction l with
  | nil => intro b _ orig h; cases h
  | cons o rest ih =>
    intro b h orig horig p hp
    rw [mkHopsFrom] at h
    obtain ⟨h1, h2⟩ := List.append_eq_nil.mp h
    rcases List.mem_cons.mp horig with rfl | hmem
    · have := List.filterMap_eq_nil_iff.mp h1 p hp
      cases hnd : ndxMap all p.2 with
      | none => rfl
      | some m => rw [hnd] at this; cases this
    · exact ih (b + 1) h2 orig hmem p hp

/-- C8 (amended): an empty admitted set does not yield a valid `N = 0`
lattice: construction fails with the numpy `IndexError`; construction
succeeds (with `N` admitted sites) whenever at least one admitted site has
at least one admitted target, e.g. whenever the rule emits an on-site
term. -/
theorem buildLattice_empty_or_ok (sizes : ℕ × ℕ × ℕ)
    (hopping : ℤ → ℤ → ℤ → List (ℚ × Coord)) (r0 : Coord)
    (cond : ℤ → ℤ → ℤ → Bool) :
    (latticeCoords sizes r0 cond = [] →
      buildLattice sizes hopping r0 cond =
        Except.error "IndexError: too many indices for array") ∧
    ((∃ c ∈ latticeCoords sizes r0 cond, ∃ p ∈ hopAt hopping c,
        p.2 ∈ latticeCoords sizes r0 cond) →
      ∃ L, buildLattice sizes hopping r0 cond = Except.ok L ∧
        L.coord = latticeCoords sizes r0 cond ∧
        L.size = (latticeCoords sizes r0 cond).length) := by
  constructor
  · intro h
    unfold buildLattice
    rw [h]
    rfl
  · rintro ⟨c, hc, p, hp, hdest⟩
    have hne : mkHops (latticeCoords sizes r0 cond) hopping ≠ [] := by
      intro hnil
      have hnone := mkHopsFrom_eq_nil (latticeCoords sizes r0 cond) 0 hnil c hc p hp
      exact ((ndxMapAux_eq_none 0).mp hnone) hdest
    refine ⟨⟨latticeCoords sizes r0 cond, mkHops (latticeCoords sizes r0 cond) hopping⟩,
      ?_, rfl, rfl⟩
    unfold buildLattice
    rw [if_neg (by simpa [List.isEmpty_iff] using hne)]

/-- Refutation of C8 as stated: construction with a predicate admitting no
coordinate raises instead of succeeding with `N = 0`. -/
theorem buildLattice_fails_on_empty :
    buildLattice (1, 1, 1) (fun X Y Z => [(1, (X, Y, Z))]) (0, 0, 0)
      (fun _ _ _ => false) =
      Except.error "IndexError: too many indices for array" := by rfl

/-- Witness for C8 (amended): the empty-set branch fires on a concrete empty
lattice, and the success branch fires on a concrete 2-site chain. -/
theorem buildLattice_empty_or_ok_witness :
    buildLattice (1, 1, 1) chainHop (0, 0, 0) (fun _ _ _ => false) =
      Except.error "IndexError: too many indices for array" ∧
    (∃ L, buildLattice (2, 1, 1) chainHop (0, 0, 0) (fun _ _ _ => true) =
        Except.ok L ∧
      L.coord = latticeCoords (2, 1, 1) (0, 0, 0) (fun _ _ _ => true) ∧
      L.size = (latticeCoords (2, 1, 1) (0, 0, 0) (fun _ _ _ => true)).length) :=
  ⟨(buildLattice_empty_or_ok (1, 1, 1) chainHop (0, 0, 0) (fun _ _ _ => false)).1 (by decide),
   (buildLattice_empty_or_ok (2, 1, 1) chainHop (0, 0, 0) (fun _ _ _ => true)).2
     ⟨(0, 0, 0), by decide, (2, (0, 0, 0)), List.mem_cons_self _ _, by decide⟩⟩
